import Mathlib

/-!
Verification development for the slippy-map-tiles library (src/lib.rs).

The Rust code is shallowly embedded: `u8`/`u32`/`u64`/`usize` values are
modelled as `Nat`, with an explicit `% 2^w` wherever the machine arithmetic
can wrap (release-build wrapping semantics of Rust).  Fallible operations
return `Option`.  A Rust panic (e.g. `unwrap` of a failed parse) is modelled
as `none` at an outer `Option` layer.
-/

namespace SlippyMap

/-- Word bound for `u32` values. -/
def U32 : Nat := 2 ^ 32

/-- Word bound for `u64` values. -/
def U64 : Nat := 2 ^ 64

/-- Largest `usize` value (the library targets 64-bit `usize`). -/
def usizeMAX : Nat := 2 ^ 64 - 1

/-- Wrapping `u32` subtraction `a - b` for `a < 2^32` (Rust release semantics). -/
def u32sub (a b : Nat) : Nat := (a + (U32 - b % U32)) % U32

/-- `struct Tile { zoom: u8, x: u32, y: u32 }`. -/
structure Tile where
  zoom : Nat
  x : Nat
  y : Nat
deriving DecidableEq, Repr

/-- `Tile::new(zoom, x, y)`.  The source compares `x`, `y` against
`2u32.pow(zoom as u32)`, a `u32` power that wraps for `zoom >= 32`
(release build); the wrap is made explicit with `% 2^32`. -/
def Tile.new (zoom x y : Nat) : Option Tile :=
  if zoom ≥ 100 then none
  else if x < 2 ^ zoom % U32 ∧ y < 2 ^ zoom % U32 then some ⟨zoom, x, y⟩
  else none

/-- `Tile::parent`. -/
def Tile.parent (t : Tile) : Option Tile :=
  if t.zoom = 0 then none
  else Tile.new (t.zoom - 1) (t.x / 2) (t.y / 2)

/-- `Tile::subtiles`.  The source only refuses `zoom == u8::MAX`; the four
children are built directly (no `Tile::new` validation), and the `u32`
arithmetic `2 * x`, `x + 1` is modelled with explicit wrap. -/
def Tile.subtiles (t : Tile) : Option (List Tile) :=
  if t.zoom = 255 then none
  else
    let z := t.zoom + 1
    let x := 2 * t.x % U32
    let y := 2 * t.y % U32
    some [⟨z, x, y⟩, ⟨z, (x + 1) % U32, y⟩, ⟨z, x, (y + 1) % U32⟩,
          ⟨z, (x + 1) % U32, (y + 1) % U32⟩]

/-- The `Tile` data-model invariant stated by the spec:
`zoom < 100` and `x < 2^zoom` and `y < 2^zoom` (exact arithmetic). -/
def TileInv (t : Tile) : Prop :=
  t.zoom < 100 ∧ t.x < 2 ^ t.zoom ∧ t.y < 2 ^ t.zoom

instance (t : Tile) : Decidable (TileInv t) := by
  unfold TileInv; infer_instance

/-- Machine representability of a `Tile`'s fields (`u8`, `u32`, `u32`). -/
def TileWF (t : Tile) : Prop :=
  t.zoom < 256 ∧ t.x < U32 ∧ t.y < U32

instance (t : Tile) : Decidable (TileWF t) := by
  unfold TileWF; infer_instance

/-- `Tile.new` succeeds exactly on `zoom < 32` with in-range coordinates:
for `32 ≤ zoom < 100` the wrapped `u32` power `2^zoom` is `0`, so nothing
passes the `x < 2^zoom` test. -/
theorem tile_new_eq_some_iff {z x y : Nat} {t : Tile} :
    Tile.new z x y = some t ↔ z < 32 ∧ x < 2 ^ z ∧ y < 2 ^ z ∧ t = ⟨z, x, y⟩ := by
  unfold Tile.new
  rcases lt_or_le z 32 with hz | hz
  · have hpow : 2 ^ z % U32 = 2 ^ z := by
      apply Nat.mod_eq_of_lt
      exact Nat.pow_lt_pow_right (by norm_num) hz
    have hz100 : ¬ z ≥ 100 := by omega
    simp only [if_neg hz100, hpow]
    by_cases hxy : x < 2 ^ z ∧ y < 2 ^ z
    · simp [hxy, hz, hxy.1, hxy.2, eq_comm]
    · simp only [if_neg hxy]
      constructor
      · intro h; cases h
      · rintro ⟨-, hx, hy, -⟩; exact absurd ⟨hx, hy⟩ hxy
  · have hpow : 2 ^ z % U32 = 0 := by
      exact Nat.mod_eq_zero_of_dvd (pow_dvd_pow 2 hz)
    constructor
    · intro h
      by_cases h100 : z ≥ 100
      · rw [if_pos h100] at h; cases h
      · rw [if_neg h100, hpow] at h
        simp at h
    · rintro ⟨hz32, -, -, -⟩; omega

/-- Number of set bits of a `u8` value, as in Rust's `count_ones`. -/
def count_ones8 (n : Nat) : Nat :=
  ((List.range 8).filter (fun i => n.testBit i)).length

/-- `u8::is_power_of_two`, i.e. `count_ones() == 1`. -/
def is_power_of_two (n : Nat) : Bool := count_ones8 n == 1

set_option maxRecDepth 4000 in
/-- For `u8` values, `is_power_of_two` agrees with the mathematical notion. -/
theorem is_power_of_two_iff :
    ∀ n, n < 256 → (is_power_of_two n = true ↔ ∃ k, k < 8 ∧ n = 2 ^ k) := by
  decide

/-- `struct Metatile { scale: u8, zoom: u8, x: u32, y: u32 }`. -/
structure Metatile where
  scale : Nat
  zoom : Nat
  x : Nat
  y : Nat
deriving DecidableEq, Repr

/-- `Metatile::new(scale, zoom, x, y)`: requires a power-of-two scale, then
the same (wrapping) validity test as `Tile::new`, then normalizes `x`/`y`
down to the nearest multiple of `scale`. -/
def Metatile.new (scale zoom x y : Nat) : Option Metatile :=
  if ¬ is_power_of_two scale then none
  else if zoom ≥ 100 then none
  else if x < 2 ^ zoom % U32 ∧ y < 2 ^ zoom % U32 then
    some ⟨scale, zoom, x / scale * scale, y / scale * scale⟩
  else none

/-- `Metatile::size`: the `u32` tile count of the zoom (wrapping power),
clipped at `scale`; the result is cast back to `u8` (the `% 256`). -/
def Metatile.size (m : Metatile) : Nat :=
  let num_tiles_in_zoom := 2 ^ m.zoom % U32
  if num_tiles_in_zoom < m.scale then num_tiles_in_zoom % 256 else m.scale

/-- `Metatile::tiles`: the `size*size` tiles of the metatile, built directly
without the `Tile::new` checks. -/
def Metatile.tiles (m : Metatile) : List Tile :=
  (List.range (m.size * m.size)).map (fun n =>
    let i := n / m.size
    let j := n % m.size
    ⟨m.zoom, (m.x + i) % U32, (m.y + j) % U32⟩)

/-- `Metatile.new` succeeds exactly on power-of-two scales and `zoom < 32`
with in-range coordinates (the wrapped power blocks `32 ≤ zoom < 100`). -/
theorem metatile_new_eq_some_iff {s z x y : Nat} {m : Metatile} :
    Metatile.new s z x y = some m ↔
      is_power_of_two s = true ∧ z < 32 ∧ x < 2 ^ z ∧ y < 2 ^ z ∧
        m = ⟨s, z, x / s * s, y / s * s⟩ := by
  unfold Metatile.new
  by_cases hs : is_power_of_two s
  · rcases lt_or_le z 32 with hz | hz
    · have hpow : 2 ^ z % U32 = 2 ^ z := by
        apply Nat.mod_eq_of_lt
        exact Nat.pow_lt_pow_right (by norm_num) hz
      have hz100 : ¬ z ≥ 100 := by omega
      simp only [hs, not_true, if_neg, if_false, hz100, hpow]
      by_cases hxy : x < 2 ^ z ∧ y < 2 ^ z
      · simp [hxy, hz, hxy.1, hxy.2, hs, eq_comm]
      · simp only [if_neg hxy]
        constructor
        · intro h; cases h
        · rintro ⟨-, -, hx, hy, -⟩; exact absurd ⟨hx, hy⟩ hxy
    · have hpow : 2 ^ z % U32 = 0 := Nat.mod_eq_zero_of_dvd (pow_dvd_pow 2 hz)
      constructor
      · intro h
        by_cases h100 : z ≥ 100
        · simp [hs, h100] at h
        · simp [hs, h100, hpow] at h
      · rintro ⟨-, hz32, -, -, -⟩; omega
  · constructor
    · intro h; rw [if_pos hs] at h; cases h
    · rintro ⟨hps, -⟩; exact absurd hps hs

/-- `xy_to_zorder(x, y)`: for each of the 32 bit positions, OR the bit of
`x` into even position `i*2` and the bit of `y` into odd position `i*2+1`
of a `u64` accumulator (note the Rust precedence: `1 << (i * 2) + 1` is
`1 << ((i * 2) + 1)`). -/
def xy_to_zorder (x y : Nat) : Nat :=
  (List.range 32).foldl (fun res i =>
    let res := if (x >>> i) &&& 1 == 1 then res ||| 1 <<< (i * 2) else res
    if (y >>> i) &&& 1 == 1 then res ||| 1 <<< (i * 2 + 1) else res) 0

/-- `zorder_to_xy(zorder)`: for each of the 32 bit positions, read bits
`i*2` and `i*2+1` of the `u64` index into bit `i` of `x` and `y`. -/
def zorder_to_xy (zorder : Nat) : Nat × Nat :=
  (List.range 32).foldl (fun p i =>
    let x := if (zorder >>> (i * 2)) &&& 1 == 1 then p.1 ||| 1 <<< i else p.1
    let y := if (zorder >>> (i * 2 + 1)) &&& 1 == 1 then p.2 ||| 1 <<< i else p.2
    (x, y)) (0, 0)

/-- The loop's bit test `(x >> i) & 1 == 1` is `Nat.testBit`. -/
theorem shift_and_one (x i : Nat) : ((x >>> i) &&& 1 == 1) = x.testBit i := by
  rw [Nat.testBit_to_div_mod, Nat.and_one_is_mod, Nat.shiftRight_eq_div_pow]
  rcases Nat.mod_two_eq_zero_or_one (x / 2 ^ i) with h | h <;> simp [h]

/-- Contribution of loop iteration `i` to the interleaved accumulator. -/
def zbit (x y i : Nat) : Nat :=
  (if x.testBit i then 1 <<< (i * 2) else 0) |||
  (if y.testBit i then 1 <<< (i * 2 + 1) else 0)

/-- Accumulator of the encoder loop after the first `n` iterations. -/
def zencUpto (x y : Nat) : Nat → Nat
  | 0 => 0
  | n + 1 => zencUpto x y n ||| zbit x y n

/-- First decoder accumulator after the first `n` iterations. -/
def zdecxUpto (z : Nat) : Nat → Nat
  | 0 => 0
  | n + 1 => zdecxUpto z n ||| (if z.testBit (n * 2) then 1 <<< n else 0)

/-- Second decoder accumulator after the first `n` iterations. -/
def zdecyUpto (z : Nat) : Nat → Nat
  | 0 => 0
  | n + 1 => zdecyUpto z n ||| (if z.testBit (n * 2 + 1) then 1 <<< n else 0)

theorem enc_step (x y res i : Nat) :
    (let r := if (x >>> i) &&& 1 == 1 then res ||| 1 <<< (i * 2) else res
     if (y >>> i) &&& 1 == 1 then r ||| 1 <<< (i * 2 + 1) else r) =
      res ||| zbit x y i := by
  simp only [shift_and_one, zbit]
  cases hx : x.testBit i <;> cases hy : y.testBit i <;>
    simp [Nat.or_assoc]

theorem xy_to_zorder_eq (x y : Nat) : xy_to_zorder x y = zencUpto x y 32 := by
  have aux : ∀ n, (List.range n).foldl (fun res i =>
      let res := if (x >>> i) &&& 1 == 1 then res ||| 1 <<< (i * 2) else res
      if (y >>> i) &&& 1 == 1 then res ||| 1 <<< (i * 2 + 1) else res) 0 =
      zencUpto x y n := by
    intro n
    induction n with
    | zero => rfl
    | succ n ih =>
      rw [List.range_succ, List.foldl_append, ih, List.foldl_cons, List.foldl_nil]
      exact enc_step x y (zencUpto x y n) n
  exact aux 32

theorem dec_step (z : Nat) (p : Nat × Nat) (i : Nat) :
    (let x := if (z >>> (i * 2)) &&& 1 == 1 then p.1 ||| 1 <<< i else p.1
     let y := if (z >>> (i * 2 + 1)) &&& 1 == 1 then p.2 ||| 1 <<< i else p.2
     (x, y)) =
      (p.1 ||| (if z.testBit (i * 2) then 1 <<< i else 0),
       p.2 ||| (if z.testBit (i * 2 + 1) then 1 <<< i else 0)) := by
  simp only [shift_and_one]
  cases hx : z.testBit (i * 2) <;> cases hy : z.testBit (i * 2 + 1) <;> simp

theorem zorder_to_xy_eq (z : Nat) :
    zorder_to_xy z = (zdecxUpto z 32, zdecyUpto z 32) := by
  have aux : ∀ n, (List.range n).foldl (fun p i =>
      let x := if (z >>> (i * 2)) &&& 1 == 1 then p.1 ||| 1 <<< i else p.1
      let y := if (z >>> (i * 2 + 1)) &&& 1 == 1 then p.2 ||| 1 <<< i else p.2
      (x, y)) (0, 0) = (zdecxUpto z n, zdecyUpto z n) := by
    intro n
    induction n with
    | zero => rfl
    | succ n ih =>
      rw [List.range_succ, List.foldl_append, ih, List.foldl_cons, List.foldl_nil]
      exact dec_step z (zdecxUpto z n, zdecyUpto z n) n
  exact aux 32

theorem testBit_zbit (x y i j : Nat) :
    (zbit x y i).testBit j =
      ((decide (i * 2 = j) && x.testBit i) ||
       (decide (i * 2 + 1 = j) && y.testBit i)) := by
  unfold zbit
  rw [Nat.testBit_lor]
  cases hx : x.testBit i <;> cases hy : y.testBit i <;>
    simp [Nat.shiftLeft_eq, Nat.testBit_two_pow, Nat.zero_testBit]

theorem testBit_zencUpto_high (x y : Nat) :
    ∀ n j, n * 2 ≤ j → (zencUpto x y n).testBit j = false := by
  intro n
  induction n with
  | zero => intro j _; exact Nat.zero_testBit j
  | succ n ih =>
    intro j hj
    show (zencUpto x y n ||| zbit x y n).testBit j = false
    rw [Nat.testBit_lor, ih j (by omega), testBit_zbit]
    have h1 : ¬ (n * 2 = j) := by omega
    have h2 : ¬ (n * 2 + 1 = j) := by omega
    simp [h1, h2]

theorem testBit_zencUpto_even (x y : Nat) :
    ∀ n i, i < n → (zencUpto x y n).testBit (i * 2) = x.testBit i := by
  intro n
  induction n with
  | zero => omega
  | succ n ih =>
    intro i hi
    show (zencUpto x y n ||| zbit x y n).testBit (i * 2) = x.testBit i
    rw [Nat.testBit_lor, testBit_zbit]
    rcases Nat.lt_or_ge i n with h | h
    · rw [ih i h]
      have h1 : ¬ (n * 2 = i * 2) := by omega
      have h2 : ¬ (n * 2 + 1 = i * 2) := by omega
      simp [h1, h2]
    · have hin : i = n := by omega
      subst hin
      rw [testBit_zencUpto_high x y i (i * 2) (by omega)]
      have h2 : ¬ (i * 2 + 1 = i * 2) := by omega
      simp [h2]

theorem testBit_zencUpto_odd (x y : Nat) :
    ∀ n i, i < n → (zencUpto x y n).testBit (i * 2 + 1) = y.testBit i := by
  intro n
  induction n with
  | zero => omega
  | succ n ih =>
    intro i hi
    show (zencUpto x y n ||| zbit x y n).testBit (i * 2 + 1) = y.testBit i
    rw [Nat.testBit_lor, testBit_zbit]
    rcases Nat.lt_or_ge i n with h | h
    · rw [ih i h]
      have h1 : ¬ (n * 2 = i * 2 + 1) := by omega
      have h2 : ¬ (n * 2 + 1 = i * 2 + 1) := by omega
      simp [h1, h2]
    · have hin : i = n := by omega
      subst hin
      rw [testBit_zencUpto_high x y i (i * 2 + 1) (by omega)]
      have h1 : ¬ (i * 2 = i * 2 + 1) := by omega
      simp [h1]

theorem testBit_zdecxUpto_high (z : Nat) :
    ∀ n j, n ≤ j → (zdecxUpto z n).testBit j = false := by
  intro n
  induction n with
  | zero => intro j _; exact Nat.zero_testBit j
  | succ n ih =>
    intro j hj
    show (zdecxUpto z n ||| _).testBit j = false
    rw [Nat.testBit_lor, ih j (by omega)]
    have hne : ¬ (n = j) := by omega
    cases hb : z.testBit (n * 2) <;>
      simp [Nat.shiftLeft_eq, Nat.testBit_two_pow, Nat.zero_testBit, hne]

theorem testBit_zdecyUpto_high (z : Nat) :
    ∀ n j, n ≤ j → (zdecyUpto z n).testBit j = false := by
  intro n
  induction n with
  | zero => intro j _; exact Nat.zero_testBit j
  | succ n ih =>
    intro j hj
    show (zdecyUpto z n ||| _).testBit j = false
    rw [Nat.testBit_lor, ih j (by omega)]
    have hne : ¬ (n = j) := by omega
    cases hb : z.testBit (n * 2 + 1) <;>
      simp [Nat.shiftLeft_eq, Nat.testBit_two_pow, Nat.zero_testBit, hne]

theorem testBit_zdecxUpto (z : Nat) :
    ∀ n j, j < n → (zdecxUpto z n).testBit j = z.testBit (j * 2) := by
  intro n
  induction n with
  | zero => omega
  | succ n ih =>
    intro j hj
    show (zdecxUpto z n ||| _).testBit j = z.testBit (j * 2)
    rw [Nat.testBit_lor]
    rcases Nat.lt_or_ge j n with h | h
    · rw [ih j h]
      have hne : ¬ (n = j) := by omega
      cases hb : z.testBit (n * 2) <;>
        simp [Nat.shiftLeft_eq, Nat.testBit_two_pow, Nat.zero_testBit, hne]
    · have hjn : j = n := by omega
      subst hjn
      rw [testBit_zdecxUpto_high z j j (le_refl j)]
      cases hb : z.testBit (j * 2) <;>
        simp [Nat.shiftLeft_eq, Nat.testBit_two_pow, Nat.zero_testBit, hb]

theorem testBit_zdecyUpto (z : Nat) :
    ∀ n j, j < n → (zdecyUpto z n).testBit j = z.testBit (j * 2 + 1) := by
  intro n
  induction n with
  | zero => omega
  | succ n ih =>
    intro j hj
    show (zdecyUpto z n ||| _).testBit j = z.testBit (j * 2 + 1)
    rw [Nat.testBit_lor]
    rcases Nat.lt_or_ge j n with h | h
    · rw [ih j h]
      have hne : ¬ (n = j) := by omega
      cases hb : z.testBit (n * 2 + 1) <;>
        simp [Nat.shiftLeft_eq, Nat.testBit_two_pow, Nat.zero_testBit, hne]
    · have hjn : j = n := by omega
      subst hjn
      rw [testBit_zdecyUpto_high z j j (le_refl j)]
      cases hb : z.testBit (j * 2 + 1) <;>
        simp [Nat.shiftLeft_eq, Nat.testBit_two_pow, Nat.zero_testBit, hb]

/-- C2: for every pair `x, y` of `u32` values, decoding the Morton
(Z-order) encoding returns exactly that pair:
`zorder_to_xy (xy_to_zorder x y) = (x, y)`. -/
theorem zorder_decode_encode_roundtrip (x y : Nat) (hx : x < U32) (hy : y < U32) :
    zorder_to_xy (xy_to_zorder x y) = (x, y) := by
  rw [xy_to_zorder_eq, zorder_to_xy_eq]
  have hxh : ∀ j, 32 ≤ j → x.testBit j = false := fun j hj =>
    Nat.testBit_lt_two_pow (lt_of_lt_of_le hx (Nat.pow_le_pow_right (by norm_num) hj))
  have hyh : ∀ j, 32 ≤ j → y.testBit j = false := fun j hj =>
    Nat.testBit_lt_two_pow (lt_of_lt_of_le hy (Nat.pow_le_pow_right (by norm_num) hj))
  simp only [Prod.mk.injEq]
  constructor
  · apply Nat.eq_of_testBit_eq
    intro j
    rcases Nat.lt_or_ge j 32 with hj | hj
    · rw [testBit_zdecxUpto _ 32 j hj, testBit_zencUpto_even x y 32 j hj]
    · rw [testBit_zdecxUpto_high _ 32 j hj, hxh j hj]
  · apply Nat.eq_of_testBit_eq
    intro j
    rcases Nat.lt_or_ge j 32 with hj | hj
    · rw [testBit_zdecyUpto _ 32 j hj, testBit_zencUpto_odd x y 32 j hj]
    · rw [testBit_zdecyUpto_high _ 32 j hj, hyh j hj]

/-- Witness for C2 at `(x, y) = (1234567, 3000000000)`. -/
theorem zorder_decode_encode_roundtrip_witness :
    1234567 < U32 ∧ 3000000000 < U32 ∧
      zorder_to_xy (xy_to_zorder 1234567 3000000000) = (1234567, 3000000000) :=
  ⟨by decide, by decide,
    zorder_decode_encode_roundtrip 1234567 3000000000 (by decide) (by decide)⟩

/-- C10: for every `u64` index `z`, re-encoding the decoded coordinate pair
returns `z`: the Morton codec is a bijection in the other direction too. -/
theorem zorder_encode_decode_roundtrip (z : Nat) (hz : z < U64) :
    xy_to_zorder (zorder_to_xy z).1 (zorder_to_xy z).2 = z := by
  rw [zorder_to_xy_eq, xy_to_zorder_eq]
  show zencUpto (zdecxUpto z 32) (zdecyUpto z 32) 32 = z
  apply Nat.eq_of_testBit_eq
  intro j
  rcases Nat.lt_or_ge j 64 with hj | hj
  · rcases Nat.even_or_odd j with he | ho
    · obtain ⟨i, hi⟩ := he
      have hj2 : j = i * 2 := by omega
      have hi32 : i < 32 := by omega
      rw [hj2, testBit_zencUpto_even _ _ 32 i hi32, testBit_zdecxUpto z 32 i hi32]
    · obtain ⟨i, hi⟩ := ho
      have hj2 : j = i * 2 + 1 := by omega
      have hi32 : i < 32 := by omega
      rw [hj2, testBit_zencUpto_odd _ _ 32 i hi32, testBit_zdecyUpto z 32 i hi32]
  · rw [testBit_zencUpto_high _ _ 32 j (by omega)]
    exact (Nat.testBit_lt_two_pow
      (lt_of_lt_of_le hz (Nat.pow_le_pow_right (by norm_num) hj))).symm

/-- Witness for C10 at `z = 123456789012345`. -/
theorem zorder_encode_decode_roundtrip_witness :
    123456789012345 < U64 ∧
      xy_to_zorder (zorder_to_xy 123456789012345).1 (zorder_to_xy 123456789012345).2 =
        123456789012345 :=
  ⟨by decide, zorder_encode_decode_roundtrip 123456789012345 (by decide)⟩

/-- C1 (code evaluated at the failing zoom): `Tile::new` rejects every
coordinate at zoom 32 — the `u32` power `2u32.pow(32)` wraps to `0`, so no
`x` passes `x < 0` — although the doc comment and spec promise success for
all `x, y < 2^zoom` whenever `zoom < 100`.  At small zooms the gate behaves
as documented, e.g. `Tile::new(6, 35, 23)` succeeds. -/
theorem tile_new_zoom32_rejects_everything :
    (∀ x y : Nat, Tile.new 32 x y = none) ∧ Tile.new 6 35 23 = some ⟨6, 35, 23⟩ := by
  constructor
  · intro x y
    have h100 : ¬ (32 : Nat) ≥ 100 := by omega
    simp [Tile.new, h100, U32, Nat.mod_self]
  · decide

/-- `struct AllTilesToZoomIterator { max_zoom, next_zoom: u8, next_x, next_y: u32 }`. -/
structure AllTilesToZoomIterator where
  max_zoom : Nat
  next_zoom : Nat
  next_x : Nat
  next_y : Nat
deriving DecidableEq, Repr

/-- `usize::checked_add` (64-bit `usize`). -/
def checked_add (a b : Nat) : Option Nat :=
  if a + b ≤ usizeMAX then some (a + b) else none

/-- `usize::checked_mul` (64-bit `usize`). -/
def checked_mul (a b : Nat) : Option Nat :=
  if a * b ≤ usizeMAX then some (a * b) else none

/-- `remaining_in_this_zoom(next_zoom, next_x, next_y)`: tiles left in the
partially-scanned current zoom level.  The `u32` subtractions are wrapping
(`u32sub`), the multiply/add are `usize`-checked as in the source. -/
def remaining_in_this_zoom (next_zoom next_x next_y : Nat) : Option Nat :=
  if next_zoom = 0 ∧ next_x = 0 ∧ next_y = 0 then some 1
  else
    let max_tile_no := 2 ^ next_zoom % U32
    let remaining_in_column := u32sub max_tile_no next_y
    let remaining_rows := u32sub (u32sub max_tile_no next_x) 1
    match checked_mul remaining_rows max_tile_no with
    | none => none
    | some remaining_after_this_column =>
        checked_add remaining_in_column remaining_after_this_column

/-- `num_tiles_in_zoom(zoom)`: `1` at zoom 0, else
`2u64.pow(2u32.pow(zoom))` for `zoom <= 5`, else `None`.  Note the source
computes `2^(2^zoom)`, not `4^zoom`. -/
def num_tiles_in_zoom (zoom : Nat) : Option Nat :=
  if zoom = 0 then some 1
  else if zoom ≤ 5 then some (2 ^ (2 ^ zoom % U32) % U64)
  else none

/-- `AllTilesToZoomIterator::size_hint`: remaining tiles in the current
level plus `num_tiles_in_zoom` for each following level, with every
overflow reported as the `(usize::MAX, None)` sentinel. -/
def AllTilesToZoomIterator.size_hint (it : AllTilesToZoomIterator) : Nat × Option Nat :=
  if it.next_zoom > it.max_zoom then (0, some 0)
  else
    match remaining_in_this_zoom it.next_zoom it.next_x it.next_y with
    | none => (usizeMAX, none)
    | some remaining_in_this_level =>
      let total := (List.range' (it.next_zoom + 1)
          (it.max_zoom + 1 - (it.next_zoom + 1))).foldl
        (fun acc i =>
          match acc with
          | none => none
          | some t =>
            match num_tiles_in_zoom i with
            | none => none
            | some n => checked_add t n) (some remaining_in_this_level)
      match total with
      | none => (usizeMAX, none)
      | some total => (total, some total)

/-- `<AllTilesToZoomIterator as Iterator>::next`: row-major scan
(`y` fastest, then `x`, then `zoom`); the yielded item is the `Option`
returned by `Tile::new`. -/
def AllTilesToZoomIterator.next (it : AllTilesToZoomIterator) :
    Option Tile × AllTilesToZoomIterator :=
  if it.next_zoom > it.max_zoom then (none, it)
  else
    let tile := Tile.new it.next_zoom it.next_x it.next_y
    let max_tile_no := u32sub (2 ^ it.next_zoom % U32) 1
    if it.next_y < max_tile_no then (tile, { it with next_y := it.next_y + 1 })
    else if it.next_x < max_tile_no then
      (tile, { it with next_x := it.next_x + 1, next_y := 0 })
    else if it.next_zoom < 255 then
      (tile, { it with next_zoom := it.next_zoom + 1, next_x := 0, next_y := 0 })
    else (tile, it)

/-- Number of tiles actually yielded before the first `none`, up to `fuel`
pulls. -/
def countYield : Nat → AllTilesToZoomIterator → Nat
  | 0, _ => 0
  | fuel + 1, it =>
    match AllTilesToZoomIterator.next it with
    | (none, _) => 0
    | (some _, it2) => countYield fuel it2 + 1

/-- C4 (code evaluated at the failing input): for `max_zoom = 3`, the
fresh iterator's `size_hint` is the exact pair `(277, some 277)` because
`num_tiles_in_zoom 3 = 256 = 2^(2^3)`, yet the iterator actually yields
`85 = 1 + 4 + 16 + 64` tiles (the per-level count is `4^zoom`, not
`2^(2^zoom)`); from `max_zoom = 6` on the sentinel is returned. -/
theorem size_hint_disagrees_with_count :
    num_tiles_in_zoom 3 = some 256 ∧ 4 ^ 3 = 64 ∧
    AllTilesToZoomIterator.size_hint ⟨3, 0, 0, 0⟩ = (277, some 277) ∧
    countYield 100 ⟨3, 0, 0, 0⟩ = 85 ∧
    AllTilesToZoomIterator.size_hint ⟨6, 0, 0, 0⟩ = (usizeMAX, none) := by
  refine ⟨by decide, by decide, by decide, ?_, by decide⟩
  decide

/-- The computed-mode state of `MetatilesIterator` (scale, zoom cursor,
Morton cursor, and the per-zoom grid geometry `curr_zoom_width_height` /
`curr_zoom_start_xy`, in metatile coordinates). -/
structure MetatilesIterator where
  scale : Nat
  curr_zoom : Nat
  maxzoom : Nat
  curr_zorder : Nat
  curr_zoom_width_height : Option (Nat × Nat)
  curr_zoom_start_xy : Option (Nat × Nat)
deriving DecidableEq, Repr

/-- Outcome of one iteration of the `loop` in
`MetatilesIterator::next_from_zorder`. -/
inductive MetaStep where
  | finished
  | skip (st : MetatilesIterator)
  | emit (zoom x y : Nat) (st : MetatilesIterator)
deriving DecidableEq, Repr

/-- One iteration of the `loop` in `MetatilesIterator::next_from_zorder`.
The parameters `wh` and `sxy` give, per zoom, the values that
`set_zoom_width_height` / `set_zoom_start_xy` would store at a zoom
transition; in the source these are derived from the bounding box through
the floating-point projection `lat_lon_to_tile`, which this discrete model
keeps abstract (`none` is the whole-world case `bbox == None`, where the
source setters leave both fields untouched, i.e. `none`). -/
def nextFromZorderStep (wh sxy : Nat → Option (Nat × Nat))
    (st : MetatilesIterator) : MetaStep :=
  if st.curr_zoom > st.maxzoom then .finished
  else
    let zoom := st.curr_zoom
    let scale := st.scale
    let wh2 := match st.curr_zoom_width_height with
      | none =>
        let max_num := 2 ^ zoom % U32
        let mx := max_num / scale
        let mx := if max_num % scale > 0 then mx + 1 else mx
        (mx, mx)
      | some p => p
    let width := wh2.1
    let height := wh2.2
    let max_zorder_for_zoom := xy_to_zorder (u32sub width 1) (u32sub height 1)
    let ij := zorder_to_xy st.curr_zorder
    let i := ij.1
    let j := ij.2
    let bits := match st.curr_zoom_start_xy with
      | none => (i, j)
      | some start => ((start.1 + i) % U32, (start.2 + j) % U32)
    if st.curr_zorder > max_zorder_for_zoom then
      .skip { st with
        curr_zoom := zoom + 1
        curr_zorder := 0
        curr_zoom_start_xy := sxy (zoom + 1)
        curr_zoom_width_height := wh (zoom + 1) }
    else if i > width ∨ j > height then
      .skip { st with curr_zorder := st.curr_zorder + 1 }
    else
      .emit zoom bits.1 bits.2 { st with curr_zorder := st.curr_zorder + 1 }

/-- `MetatilesIterator::next_from_zorder`, run with `fuel` loop iterations:
`none` means the fuel ran out, `some (r, st)` means the source loop exited
with yielded item `r` (the `Option` returned by the final `Metatile::new`,
where the local metatile coordinate is scaled by `scale` with `u32`
wrapping) and post-state `st`. -/
def nextFromZorder (wh sxy : Nat → Option (Nat × Nat)) :
    Nat → MetatilesIterator → Option (Option Metatile × MetatilesIterator)
  | 0, _ => none
  | fuel + 1, st =>
    match nextFromZorderStep wh sxy st with
    | .finished => some (none, st)
    | .skip st2 => nextFromZorder wh sxy fuel st2
    | .emit zoom x y st2 =>
        some (Metatile.new st.scale zoom (x * st.scale % U32) (y * st.scale % U32), st2)

/-- C3 (code evaluated at the failing input): with a computed grid of
`width = 1`, `height = 2` (a box one metatile wide and two tall), the
Morton index `1` decodes to the local cell `(i, j) = (1, 0)`, which lies
outside the `1 x 2` rectangle (`i` is not `< width`); the skip test
`i > width` (instead of `i >= width`) nevertheless lets it through, and
the iterator emits the out-of-rectangle metatile `8 4/8/0`.  A cell that
is outside by two columns, e.g. `(2, 0)` under `width = 1, height = 3`,
is skipped as the comment promises. -/
theorem metatiles_iterator_emits_cell_outside_rectangle :
    zorder_to_xy 1 = (1, 0) ∧ ¬ (1 < 1) ∧
    nextFromZorder (fun _ => none) (fun _ => none) 2
        ⟨8, 4, 4, 1, some (1, 2), some (0, 0)⟩ =
      some (some ⟨8, 4, 8, 0⟩, ⟨8, 4, 4, 2, some (1, 2), some (0, 0)⟩) ∧
    zorder_to_xy 4 = (2, 0) ∧
    nextFromZorderStep (fun _ => none) (fun _ => none)
        ⟨8, 4, 4, 4, some (1, 3), some (0, 0)⟩ =
      .skip ⟨8, 4, 4, 5, some (1, 3), some (0, 0)⟩ := by
  refine ⟨by decide, by decide, by decide, by decide, by decide⟩

/-- C7 counterexample: `(scale, zoom, x, y) = (2, 32, 0, 0)` satisfies the
spec's validity condition (power-of-two scale, `zoom < 100`,
`x, y < 2^zoom`), yet `Metatile::new` returns `None` (the wrapped `u32`
power is `0` at zoom 32), so no normalized metatile is produced. -/
theorem metatile_new_valid_input_rejected :
    is_power_of_two 2 = true ∧ (32 : Nat) < 100 ∧ (0 : Nat) < 2 ^ 32 ∧
      Metatile.new 2 32 0 0 = none := by
  refine ⟨by decide, by decide, by decide, by decide⟩

/-- C7 amended: for a power-of-two `u8` scale and `zoom < 32` (rather than
the full `zoom < 100` range, where construction fails), `Metatile::new`
normalizes `x`/`y` down to the nearest multiple of `scale`, and `size()`
equals `min scale 2^zoom`; in particular `Metatile::new(8, 3, 3, 2)`
normalizes to `x = 0, y = 0` and `Metatile(8,3,0,0).size() == 8`. -/
theorem metatile_new_normalizes_and_size (s z x y : Nat)
    (hs : is_power_of_two s = true) (hs8 : s < 256)
    (hz : z < 32) (hx : x < 2 ^ z) (hy : y < 2 ^ z) :
    Metatile.new s z x y = some ⟨s, z, x / s * s, y / s * s⟩ ∧
    Metatile.size ⟨s, z, x / s * s, y / s * s⟩ = min s (2 ^ z) ∧
    Metatile.new 8 3 3 2 = some ⟨8, 3, 0, 0⟩ ∧
    Metatile.size ⟨8, 3, 0, 0⟩ = 8 := by
  refine ⟨metatile_new_eq_some_iff.mpr ⟨hs, hz, hx, hy, rfl⟩, ?_, by decide, by decide⟩
  unfold Metatile.size
  have hpow : 2 ^ z % U32 = 2 ^ z :=
    Nat.mod_eq_of_lt (Nat.pow_lt_pow_right (by norm_num) hz)
  simp only [hpow]
  rcases Nat.lt_or_ge (2 ^ z) s with h | h
  · rw [if_pos h, Nat.mod_eq_of_lt (by omega), min_eq_right (le_of_lt h)]
  · rw [if_neg (by omega), min_eq_left h]

/-- Witness for the amended C7 at `(8, 3, 3, 2)`. -/
theorem metatile_new_normalizes_and_size_witness :
    is_power_of_two 8 = true ∧ 8 < 256 ∧ 3 < 32 ∧ 3 < 2 ^ 3 ∧ 2 < 2 ^ 3 ∧
      Metatile.new 8 3 3 2 = some ⟨8, 3, 0, 0⟩ :=
  ⟨by decide, by decide, by decide, by decide, by decide,
    (metatile_new_normalizes_and_size 8 3 3 2 (by decide) (by decide) (by decide)
      (by decide) (by decide)).1⟩

/-- `Tile.subtiles` on a constructor, with the child list spelled out. -/
theorem Tile.subtiles_mk (z x y : Nat) (h : ¬ z = 255) :
    Tile.subtiles ⟨z, x, y⟩ =
      some [⟨z + 1, 2 * x % U32, 2 * y % U32⟩,
            ⟨z + 1, (2 * x % U32 + 1) % U32, 2 * y % U32⟩,
            ⟨z + 1, 2 * x % U32, (2 * y % U32 + 1) % U32⟩,
            ⟨z + 1, (2 * x % U32 + 1) % U32, (2 * y % U32 + 1) % U32⟩] := by
  unfold Tile.subtiles
  rw [if_neg h]

/-- `Tile.parent` on a constructor with nonzero zoom. -/
theorem Tile.parent_mk (z x y : Nat) (h : ¬ z = 0) :
    Tile.parent ⟨z, x, y⟩ = Tile.new (z - 1) (x / 2) (y / 2) := by
  unfold Tile.parent
  rw [if_neg h]

/-- C8: for every tile `t` admitted by the `Tile::new` gate with
`0 < zoom`, `t.parent().subtiles()` is defined and contains `t`, and every
subtile of `t` reports `t` as its parent. -/
theorem parent_subtiles_roundtrip (z x y : Nat) (t : Tile)
    (h : Tile.new z x y = some t) (hz : 0 < z) :
    (∃ p subs, t.parent = some p ∧ p.subtiles = some subs ∧ t ∈ subs) ∧
    (∀ subs, t.subtiles = some subs → ∀ s ∈ subs, s.parent = some t) := by
  obtain ⟨hz32, hx, hy, ht⟩ := tile_new_eq_some_iff.mp h
  subst ht
  have hzle : (2 : Nat) ^ z ≤ 2 ^ 31 := Nat.pow_le_pow_right (by norm_num) (by omega)
  have hU : U32 = 2 * 2 ^ 31 := by norm_num [U32]
  have hps : 2 ^ (z - 1) * 2 = 2 ^ z := by
    rw [← pow_succ]
    congr 1
    omega
  constructor
  · have hparent : Tile.parent ⟨z, x, y⟩ = some ⟨z - 1, x / 2, y / 2⟩ := by
      rw [Tile.parent_mk z x y (by omega)]
      exact tile_new_eq_some_iff.mpr ⟨by omega, by omega, by omega, rfl⟩
    have hxm : 2 * (x / 2) % U32 = 2 * (x / 2) := Nat.mod_eq_of_lt (by omega)
    have hym : 2 * (y / 2) % U32 = 2 * (y / 2) := Nat.mod_eq_of_lt (by omega)
    have hxm1 : (2 * (x / 2) % U32 + 1) % U32 = 2 * (x / 2) + 1 := by
      rw [hxm]
      exact Nat.mod_eq_of_lt (by omega)
    have hym1 : (2 * (y / 2) % U32 + 1) % U32 = 2 * (y / 2) + 1 := by
      rw [hym]
      exact Nat.mod_eq_of_lt (by omega)
    refine ⟨⟨z - 1, x / 2, y / 2⟩, _, hparent,
      Tile.subtiles_mk (z - 1) (x / 2) (y / 2) (by omega), ?_⟩
    simp only [List.mem_cons, List.not_mem_nil, or_false]
    rcases Nat.mod_two_eq_zero_or_one x with hx2 | hx2 <;>
      rcases Nat.mod_two_eq_zero_or_one y with hy2 | hy2
    · exact Or.inl (by rw [Tile.mk.injEq]; exact ⟨by omega, by omega, by omega⟩)
    · exact Or.inr (Or.inr (Or.inl
        (by rw [Tile.mk.injEq]; exact ⟨by omega, by omega, by omega⟩)))
    · exact Or.inr (Or.inl
        (by rw [Tile.mk.injEq]; exact ⟨by omega, by omega, by omega⟩))
    · exact Or.inr (Or.inr (Or.inr
        (by rw [Tile.mk.injEq]; exact ⟨by omega, by omega, by omega⟩)))
  · intro subs hsubs s hs
    rw [Tile.subtiles_mk z x y (by omega)] at hsubs
    injection hsubs with hsubs
    subst hsubs
    have hxm : 2 * x % U32 = 2 * x := Nat.mod_eq_of_lt (by omega)
    have hym : 2 * y % U32 = 2 * y := Nat.mod_eq_of_lt (by omega)
    have hxm1 : (2 * x % U32 + 1) % U32 = 2 * x + 1 := by
      rw [hxm]
      exact Nat.mod_eq_of_lt (by omega)
    have hym1 : (2 * y % U32 + 1) % U32 = 2 * y + 1 := by
      rw [hym]
      exact Nat.mod_eq_of_lt (by omega)
    have hx2 : 2 * x / 2 = x := by omega
    have hx21 : (2 * x + 1) / 2 = x := by omega
    have hy2 : 2 * y / 2 = y := by omega
    have hy21 : (2 * y + 1) / 2 = y := by omega
    simp only [List.mem_cons, List.not_mem_nil, or_false] at hs
    rcases hs with hs | hs | hs | hs <;> subst hs
    · rw [Tile.parent_mk (z + 1) (2 * x % U32) (2 * y % U32) (by omega),
        hxm, hym, hx2, hy2, Nat.add_sub_cancel]
      exact h
    · rw [Tile.parent_mk (z + 1) ((2 * x % U32 + 1) % U32) (2 * y % U32) (by omega),
        hxm1, hym, hx21, hy2, Nat.add_sub_cancel]
      exact h
    · rw [Tile.parent_mk (z + 1) (2 * x % U32) ((2 * y % U32 + 1) % U32) (by omega),
        hxm, hym1, hx2, hy21, Nat.add_sub_cancel]
      exact h
    · rw [Tile.parent_mk (z + 1) ((2 * x % U32 + 1) % U32) ((2 * y % U32 + 1) % U32) (by omega),
        hxm1, hym1, hx21, hy21, Nat.add_sub_cancel]
      exact h

/-- Witness for C8 at the tile `2/3/1`. -/
theorem parent_subtiles_roundtrip_witness :
    Tile.new 2 3 1 = some ⟨2, 3, 1⟩ ∧ 0 < 2 ∧
    ((∃ p subs, Tile.parent ⟨2, 3, 1⟩ = some p ∧ Tile.subtiles p = some subs ∧
        (⟨2, 3, 1⟩ : Tile) ∈ subs) ∧
     (∀ subs, Tile.subtiles ⟨2, 3, 1⟩ = some subs →
        ∀ s ∈ subs, s.parent = some ⟨2, 3, 1⟩)) :=
  ⟨by decide, by decide, parent_subtiles_roundtrip 2 3 1 ⟨2, 3, 1⟩ (by decide) (by decide)⟩

/-- Geometric well-formedness of a tile: in-range for its zoom, and `u32`
representable. -/
def TileGeom (t : Tile) : Prop :=
  t.x < 2 ^ t.zoom ∧ t.y < 2 ^ t.zoom ∧ t.x < U32 ∧ t.y < U32

instance (t : Tile) : Decidable (TileGeom t) := by
  unfold TileGeom; infer_instance

/-- `TileInv` on an explicit constructor. -/
theorem tileInv_mk {z x y : Nat} (h1 : z < 100) (h2 : x < 2 ^ z) (h3 : y < 2 ^ z) :
    TileInv ⟨z, x, y⟩ := ⟨h1, h2, h3⟩

/-- `TileWF` on an explicit constructor. -/
theorem tileWF_mk {z x y : Nat} (h1 : z < 256) (h2 : x < U32) (h3 : y < U32) :
    TileWF ⟨z, x, y⟩ := ⟨h1, h2, h3⟩

/-- A tile admitted by `Tile.new` satisfies both the spec invariant and
machine representability. -/
theorem new_some_inv {z x y : Nat} {t : Tile} (h : Tile.new z x y = some t) :
    TileInv t ∧ TileWF t := by
  obtain ⟨hz, hx, hy, ht⟩ := tile_new_eq_some_iff.mp h
  subst ht
  have hzle : (2 : Nat) ^ z ≤ 2 ^ 31 := Nat.pow_le_pow_right (by norm_num) (by omega)
  have hU : U32 = 2 * 2 ^ 31 := by norm_num [U32]
  exact ⟨tileInv_mk (by omega) hx hy, tileWF_mk (by omega) (by omega) (by omega)⟩

/-- Bounds of the two child coordinates `2c` and `2c+1` (with `u32` wrap)
derived from a parent coordinate `c < 2^z`. -/
theorem child_coord_bounds (z c : Nat) (hc : c < 2 ^ z) (hcu : c < U32) :
    2 * c % U32 < 2 ^ (z + 1) ∧ (2 * c % U32 + 1) % U32 < 2 ^ (z + 1) ∧
    2 * c % U32 < U32 ∧ (2 * c % U32 + 1) % U32 < U32 := by
  have hU32pos : 0 < U32 := by norm_num [U32]
  have hmod1 : 2 * c % U32 < U32 := Nat.mod_lt _ hU32pos
  have hmod2 : (2 * c % U32 + 1) % U32 < U32 := Nat.mod_lt _ hU32pos
  have hU : U32 = 2 ^ 32 := rfl
  rcases Nat.lt_or_ge z 32 with hz | hz
  · have hp : 2 ^ (z + 1) ≤ 2 ^ 32 := Nat.pow_le_pow_right (by norm_num) (by omega)
    have hps : 2 ^ (z + 1) = 2 * 2 ^ z := by rw [pow_succ]; ring
    have h1 : 2 * c % U32 = 2 * c := Nat.mod_eq_of_lt (by omega)
    have h2 : (2 * c % U32 + 1) % U32 = 2 * c + 1 := by
      rw [h1]
      exact Nat.mod_eq_of_lt (by omega)
    exact ⟨by omega, by omega, hmod1, hmod2⟩
  · have hp : 2 ^ 32 ≤ 2 ^ (z + 1) := Nat.pow_le_pow_right (by norm_num) (by omega)
    exact ⟨by omega, by omega, hmod1, hmod2⟩

/-- Every member of a subtile list of a geometrically valid tile is
geometrically valid at zoom one deeper. -/
theorem subtiles_mem_bounds (z x y : Nat) (subs : List Tile)
    (hsubs : Tile.subtiles ⟨z, x, y⟩ = some subs)
    (hx : x < 2 ^ z) (hy : y < 2 ^ z) (hxu : x < U32) (hyu : y < U32) :
    ∀ s ∈ subs, s.zoom = z + 1 ∧ s.x < 2 ^ s.zoom ∧ s.y < 2 ^ s.zoom ∧
      s.x < U32 ∧ s.y < U32 := by
  by_cases hz255 : z = 255
  · rw [Tile.subtiles, if_pos (show Tile.zoom ⟨z, x, y⟩ = 255 from hz255)] at hsubs
    cases hsubs
  · rw [Tile.subtiles_mk z x y hz255] at hsubs
    injection hsubs with hsubs
    subst hsubs
    obtain ⟨ha1, ha2, ha3, ha4⟩ := child_coord_bounds z x hx hxu
    obtain ⟨hb1, hb2, hb3, hb4⟩ := child_coord_bounds z y hy hyu
    intro s hs
    simp only [List.mem_cons, List.not_mem_nil, or_false] at hs
    rcases hs with hs | hs | hs | hs <;> subst hs
    · exact ⟨rfl, ha1, hb1, ha3, hb3⟩
    · exact ⟨rfl, ha2, hb1, ha4, hb3⟩
    · exact ⟨rfl, ha1, hb2, ha3, hb4⟩
    · exact ⟨rfl, ha2, hb2, ha4, hb4⟩

/-- `Metatile::size` computes `min scale 2^zoom` whenever the zoom is below
the `u32` wrap threshold. -/
theorem metatile_size_eq (s z x y : Nat) (hs8 : s < 256) (hz : z < 32) :
    Metatile.size ⟨s, z, x, y⟩ = min s (2 ^ z) := by
  unfold Metatile.size
  have hpow : 2 ^ z % U32 = 2 ^ z :=
    Nat.mod_eq_of_lt (Nat.pow_lt_pow_right (by norm_num) hz)
  simp only [hpow]
  rcases Nat.lt_or_ge (2 ^ z) s with h | h
  · rw [if_pos h, Nat.mod_eq_of_lt (by omega), min_eq_right (le_of_lt h)]
  · rw [if_neg (by omega), min_eq_left h]

/-- Every tile produced by `Metatile::tiles` of a constructed metatile
satisfies the spec invariant. -/
theorem metatile_tiles_inv (sc z x y : Nat) (m : Metatile) (hsc : sc < 256)
    (h : Metatile.new sc z x y = some m) :
    ∀ s ∈ m.tiles, TileInv s ∧ TileWF s := by
  obtain ⟨hpow, hz, hx, hy, hm⟩ := metatile_new_eq_some_iff.mp h
  subst hm
  obtain ⟨k, hk8, hsk⟩ := (is_power_of_two_iff sc hsc).mp hpow
  subst hsk
  intro s hs
  unfold Metatile.tiles at hs
  rw [metatile_size_eq (2 ^ k) z _ _ hsc hz] at hs
  simp only [List.mem_map, List.mem_range] at hs
  obtain ⟨n, hn, rfl⟩ := hs
  have hzle : (2 : Nat) ^ z ≤ 2 ^ 31 := Nat.pow_le_pow_right (by norm_num) (by omega)
  have hU : U32 = 2 * 2 ^ 31 := by norm_num [U32]
  rcases Nat.lt_or_ge (2 ^ z) (2 ^ k) with hzk | hzk
  · -- whole pyramid smaller than the scale: size is 2^z and x/y normalize to 0
    have hmin : min (2 ^ k) (2 ^ z) = 2 ^ z := min_eq_right (le_of_lt hzk)
    rw [hmin] at hn
    have hx0 : x / 2 ^ k = 0 := Nat.div_eq_of_lt (by omega)
    have hy0 : y / 2 ^ k = 0 := Nat.div_eq_of_lt (by omega)
    have hi : n / 2 ^ z < 2 ^ z := Nat.div_lt_of_lt_mul hn
    have hj : n % 2 ^ z < 2 ^ z := Nat.mod_lt _ (by positivity)
    have hxi : (x / 2 ^ k * 2 ^ k + n / 2 ^ z) % U32 = n / 2 ^ z := by
      rw [hx0, Nat.zero_mul, Nat.zero_add]
      exact Nat.mod_eq_of_lt (by omega)
    have hyj : (y / 2 ^ k * 2 ^ k + n % 2 ^ z) % U32 = n % 2 ^ z := by
      rw [hy0, Nat.zero_mul, Nat.zero_add]
      exact Nat.mod_eq_of_lt (by omega)
    refine ⟨tileInv_mk (by omega) ?_ ?_, tileWF_mk (by omega) ?_ ?_⟩ <;>
      simp only [hmin, hxi, hyj] <;> omega
  · -- scale-aligned case: normalized coordinate plus offset stays in range
    have hmin : min (2 ^ k) (2 ^ z) = 2 ^ k := min_eq_left hzk
    rw [hmin] at hn
    have hkz : k ≤ z := by
      by_contra hlt
      push_neg at hlt
      exact absurd hzk (by
        have := Nat.pow_lt_pow_right (show 1 < 2 by norm_num) hlt
        omega)
    have hzk2 : 2 ^ (z - k) * 2 ^ k = 2 ^ z := by
      rw [← pow_add]
      congr 1
      omega
    have hkpos : 0 < 2 ^ k := by positivity
    have hxdiv : x / 2 ^ k < 2 ^ (z - k) :=
      Nat.div_lt_of_lt_mul (by rw [Nat.mul_comm, hzk2]; exact hx)
    have hydiv : y / 2 ^ k < 2 ^ (z - k) :=
      Nat.div_lt_of_lt_mul (by rw [Nat.mul_comm, hzk2]; exact hy)
    have hxb : x / 2 ^ k * 2 ^ k ≤ (2 ^ (z - k) - 1) * 2 ^ k :=
      Nat.mul_le_mul_right _ (by omega)
    have hyb : y / 2 ^ k * 2 ^ k ≤ (2 ^ (z - k) - 1) * 2 ^ k :=
      Nat.mul_le_mul_right _ (by omega)
    have hsub : (2 ^ (z - k) - 1) * 2 ^ k = 2 ^ z - 2 ^ k := by
      rw [Nat.sub_mul, one_mul, hzk2]
    have hi : n / 2 ^ k < 2 ^ k := Nat.div_lt_of_lt_mul hn
    have hj : n % 2 ^ k < 2 ^ k := Nat.mod_lt _ hkpos
    have hxi : (x / 2 ^ k * 2 ^ k + n / 2 ^ k) % U32 = x / 2 ^ k * 2 ^ k + n / 2 ^ k :=
      Nat.mod_eq_of_lt (by omega)
    have hyj : (y / 2 ^ k * 2 ^ k + n % 2 ^ k) % U32 = y / 2 ^ k * 2 ^ k + n % 2 ^ k :=
      Nat.mod_eq_of_lt (by omega)
    refine ⟨tileInv_mk (by omega) ?_ ?_, tileWF_mk (by omega) ?_ ?_⟩ <;>
      simp only [hmin, hxi, hyj] <;> omega

/-- `struct AllTilesIterator { next_zoom: u8, next_zorder: u64 }`. -/
structure AllTilesIterator where
  next_zoom : Nat
  next_zorder : Nat
deriving DecidableEq, Repr

/-- `<AllTilesIterator as Iterator>::next`: decode the Morton cursor, gate
the coordinate through `Tile::new` (the yielded item is its `Option`
result), and advance the cursor — to the next zoom when the decoded
coordinate is the last of the level. -/
def AllTilesIterator.next (it : AllTilesIterator) : Option Tile × AllTilesIterator :=
  let zoom := it.next_zoom
  let xy := zorder_to_xy it.next_zorder
  let tile := Tile.new zoom xy.1 xy.2
  let max_tile_no := u32sub (2 ^ zoom % U32) 1
  if xy.1 = max_tile_no ∧ xy.2 = max_tile_no then
    (tile, ⟨(zoom + 1) % 256, 0⟩)
  else
    (tile, ⟨zoom, (it.next_zorder + 1) % U64⟩)

/-- `<AllSubTilesIterator as Iterator>::next`: pop the queue's front tile,
append its subtiles (when any) to the queue, and yield it. -/
def allSubTilesNext (tiles : List Tile) : Option (Tile × List Tile) :=
  match tiles with
  | [] => none
  | next :: rest =>
    match Tile.subtiles next with
    | some sub => some (next, rest ++ sub)
    | none => some (next, rest)

/-- First subtile of a tile (identity when there is none): one step of the
chain a caller of `subtiles` can take. -/
def subtile0 (t : Tile) : Tile :=
  match Tile.subtiles t with
  | some (s :: _) => s
  | _ => t

set_option maxRecDepth 40000 in
/-- C5 counterexample: starting from the valid tile `0/0/0` and taking the
first subtile 100 times — each step a plain `subtiles` call of the public
API — yields a `Tile` value with `zoom = 100`, violating the claimed
invariant `zoom < 100` (the `subtiles` gate only stops at `u8::MAX`). -/
theorem subtiles_chain_escapes_invariant :
    Tile.new 0 0 0 = some ⟨0, 0, 0⟩ ∧
    subtile0^[100] ⟨0, 0, 0⟩ = ⟨100, 0, 0⟩ ∧
    ¬ TileInv ⟨100, 0, 0⟩ := by
  refine ⟨by decide, by decide, ?_⟩
  intro h
  exact absurd h.1 (by decide)

/-- C5 amended: every `Tile` produced by `Tile::new`, `parent`,
`Metatile::tiles`, or the whole-world and zoom-bounded iterators satisfies
the full invariant `zoom < 100 ∧ x < 2^zoom ∧ y < 2^zoom`; tiles produced
by `subtiles` (and hence by `all_subtiles_iter`, whose queue steps through
`subtiles`) always keep the geometric part `x < 2^zoom ∧ y < 2^zoom` and
`u32` representability, but their zoom is only bounded by `u8` — the
`zoom < 100` part of the invariant holds for a subtile only when the
parent's zoom is below 99. -/
theorem public_api_tile_invariant :
    (∀ z x y t, Tile.new z x y = some t → TileInv t ∧ TileWF t) ∧
    (∀ t p, Tile.parent t = some p → TileInv p ∧ TileWF p) ∧
    (∀ z x y subs, Tile.subtiles ⟨z, x, y⟩ = some subs →
      x < 2 ^ z → y < 2 ^ z → x < U32 → y < U32 →
      ∀ s ∈ subs, s.zoom = z + 1 ∧ TileGeom s ∧ (z + 1 < 100 → TileInv s)) ∧
    (∀ sc z x y m, sc < 256 → Metatile.new sc z x y = some m →
      ∀ s ∈ m.tiles, TileInv s ∧ TileWF s) ∧
    (∀ it t it2, AllTilesIterator.next it = (some t, it2) → TileInv t ∧ TileWF t) ∧
    (∀ it t it2, AllTilesToZoomIterator.next it = (some t, it2) →
      TileInv t ∧ TileWF t) ∧
    (∀ q t q2, allSubTilesNext q = some (t, q2) → (∀ u ∈ q, TileGeom u) →
      TileGeom t ∧ ∀ u ∈ q2, TileGeom u) := by
  refine ⟨fun z x y t h => new_some_inv h, ?_, ?_, ?_, ?_, ?_, ?_⟩
  · intro t p h
    unfold Tile.parent at h
    by_cases h0 : t.zoom = 0
    · rw [if_pos h0] at h
      cases h
    · rw [if_neg h0] at h
      exact new_some_inv h
  · intro z x y subs hsubs hx hy hxu hyu s hs
    obtain ⟨hz, b1, b2, b3, b4⟩ := subtiles_mem_bounds z x y subs hsubs hx hy hxu hyu s hs
    refine ⟨hz, ⟨b1, b2, b3, b4⟩, fun h100 => ⟨?_, b1, b2⟩⟩
    rw [hz]
    exact h100
  · intro sc z x y m hsc h
    exact metatile_tiles_inv sc z x y m hsc h
  · intro it t it2 h
    simp only [AllTilesIterator.next] at h
    split at h <;> (rw [Prod.mk.injEq] at h; exact new_some_inv h.1)
  · intro it t it2 h
    simp only [AllTilesToZoomIterator.next] at h
    split at h
    · rw [Prod.mk.injEq] at h
      cases h.1
    · split at h
      · rw [Prod.mk.injEq] at h
        exact new_some_inv h.1
      · split at h
        · rw [Prod.mk.injEq] at h
          exact new_some_inv h.1
        · split at h
          · rw [Prod.mk.injEq] at h
            exact new_some_inv h.1
          · rw [Prod.mk.injEq] at h
            exact new_some_inv h.1
  · intro q t q2 h hq
    cases q with
    | nil => simp [allSubTilesNext] at h
    | cons nx rest =>
      obtain ⟨z, x, y⟩ := nx
      have hnx := hq ⟨z, x, y⟩ (List.mem_cons_self _ _)
      cases hsub : Tile.subtiles ⟨z, x, y⟩ with
      | some sub =>
        simp only [allSubTilesNext, hsub] at h
        obtain ⟨h1, h2⟩ : (⟨z, x, y⟩ : Tile) = t ∧ rest ++ sub = q2 := by
          simpa using h
        subst h1
        subst h2
        refine ⟨hnx, ?_⟩
        intro u hu
        rcases List.mem_append.mp hu with hu | hu
        · exact hq u (List.mem_cons_of_mem _ hu)
        · obtain ⟨-, b1, b2, b3, b4⟩ :=
            subtiles_mem_bounds z x y sub hsub hnx.1 hnx.2.1 hnx.2.2.1 hnx.2.2.2 u hu
          exact ⟨b1, b2, b3, b4⟩
      | none =>
        simp only [allSubTilesNext, hsub] at h
        obtain ⟨h1, h2⟩ : (⟨z, x, y⟩ : Tile) = t ∧ rest = q2 := by
          simpa using h
        subst h1
        subst h2
        exact ⟨hnx, fun u hu => hq u (List.mem_cons_of_mem _ hu)⟩

/-- Witness for the amended C5 at the tile `3/5/6`. -/
theorem public_api_tile_invariant_witness :
    Tile.new 3 5 6 = some ⟨3, 5, 6⟩ ∧ TileInv ⟨3, 5, 6⟩ ∧ TileWF ⟨3, 5, 6⟩ :=
  ⟨by decide, (public_api_tile_invariant.1 3 5 6 ⟨3, 5, 6⟩ (by decide)).1,
    (public_api_tile_invariant.1 3 5 6 ⟨3, 5, 6⟩ (by decide)).2⟩

/-- Split a character list at every `'/'` (the shape the anchored regex
`^(\d?\d)/(\d{1,10})/(\d{1,10})$` imposes: exactly three all-digit groups). -/
def splitSlashes : List Char → List (List Char)
  | [] => [[]]
  | c :: rest =>
    match splitSlashes rest with
    | [] => [[]]
    | g :: gs => if c = '/' then [] :: g :: gs else (c :: g) :: gs

/-- One group of the regex: `1` to `maxLen` ASCII digits. -/
def digitGroup (l : List Char) (maxLen : Nat) : Bool :=
  decide (1 ≤ l.length) && decide (l.length ≤ maxLen) && l.all (fun c => c.isDigit)

/-- Decimal value of a digit string, as `str::parse` computes it. -/
def digitsToNat (l : List Char) : Nat :=
  l.foldl (fun a c => a * 10 + (c.toNat - '0'.toNat)) 0

deriving instance DecidableEq for Except

/-- `<Tile as FromStr>::from_str`.  The outer `Option` is the panic
layer: `none` models the `unwrap()` panic that fires when a matched
1-to-10-digit group exceeds `u32::MAX` and `parse::<u32>()` fails (the
zoom group has at most 2 digits, so its `parse::<u8>()` cannot fail);
`some` carries the `Result` the function returns otherwise. -/
def tile_from_str (s : String) : Option (Except String Tile) :=
  match splitSlashes s.data with
  | [zs, xs, ys] =>
    if digitGroup zs 2 && digitGroup xs 10 && digitGroup ys 10 then
      let zoom := digitsToNat zs
      let x := digitsToNat xs
      let y := digitsToNat ys
      if x ≤ U32 - 1 ∧ y ≤ U32 - 1 then
        some (match Tile.new zoom x y with
          | none => Except.error "Invalid X or Y for this zoom"
          | some t => Except.ok t)
      else none
    else some (Except.error "Tile Z/X/Y regex didn't match")
  | _ => some (Except.error "Tile Z/X/Y regex didn't match")

/-- C6 (code evaluated at the failing input): on `"1/9999999999/0"` the
grammar `^\d{1,2}/\d{1,10}/\d{1,10}$` matches, but `9999999999` exceeds
`u32::MAX = 4294967295`, the `parse::<u32>().unwrap()` panics, and no
error value is returned (modelled as the outer `none`).  On other inputs
the parser behaves as the claim says: a well-formed tile parses, a
non-matching string reports the grammar error, and a matching but
geometrically invalid triple reports the validity error. -/
theorem tile_from_str_panics_on_large_coordinate :
    tile_from_str "1/9999999999/0" = none ∧
    (9999999999 : Nat) > U32 - 1 ∧
    tile_from_str "3/1/2" = some (Except.ok ⟨3, 1, 2⟩) ∧
    tile_from_str "foo" = some (Except.error "Tile Z/X/Y regex didn't match") ∧
    tile_from_str "0/1/1" = some (Except.error "Invalid X or Y for this zoom") ∧
    tile_from_str "10/547/380" = some (Except.ok ⟨10, 547, 380⟩) := by
  refine ⟨by decide, by decide, by decide, by decide, by decide, by decide⟩

/-- `struct LatLon { lat: f32, lon: f32 }`.  Coordinates are modelled as
rationals: `contains_point` only compares coordinates, and on the
validated (NaN-free) range `f32` comparison agrees with the numeric
order. -/
structure LatLon where
  lat : ℚ
  lon : ℚ
deriving DecidableEq

/-- `LatLon::new`, validating `lat ∈ [-90, 90]` and `lon ∈ [-180, 180]`. -/
def LatLon.new (lat lon : ℚ) : Option LatLon :=
  if -90 ≤ lat ∧ lat ≤ 90 ∧ -180 ≤ lon ∧ lon ≤ 180 then some ⟨lat, lon⟩ else none

/-- `struct BBox { top, left, bottom, right: f32 }`. -/
structure BBox where
  top : ℚ
  left : ℚ
  bottom : ℚ
  right : ℚ
deriving DecidableEq

/-- `BBox::new`, validating each edge independently. -/
def BBox.new (top left bottom right : ℚ) : Option BBox :=
  if (-90 ≤ top ∧ top ≤ 90) ∧ (-90 ≤ bottom ∧ bottom ≤ 90) ∧
      (-180 ≤ left ∧ left ≤ 180) ∧ (-180 ≤ right ∧ right ≤ 180) then
    some ⟨top, left, bottom, right⟩
  else none

/-- `BBox::contains_point`: `lat <= top && lat > bottom && lon >= left &&
lon < right`. -/
def BBox.contains_point (b : BBox) (p : LatLon) : Bool :=
  decide (p.lat ≤ b.top) && decide (p.lat > b.bottom) &&
  decide (p.lon ≥ b.left) && decide (p.lon < b.right)

/-- C9: `contains_point` is exactly the half-open test — top and left
edges inclusive, bottom and right edges exclusive; in particular a point
on the top (or left) edge is contained whenever the remaining three
comparisons hold, and a point on the bottom or right edge never is. -/
theorem contains_point_boundary :
    (∀ (b : BBox) (p : LatLon), b.contains_point p = true ↔
      (p.lat ≤ b.top ∧ p.lat > b.bottom ∧ p.lon ≥ b.left ∧ p.lon < b.right)) ∧
    (∀ (b : BBox) (p : LatLon), p.lat = b.top → b.bottom < p.lat →
      b.left ≤ p.lon → p.lon < b.right → b.contains_point p = true) ∧
    (∀ (b : BBox) (p : LatLon), p.lon = b.left → p.lat ≤ b.top →
      b.bottom < p.lat → b.left < b.right → b.contains_point p = true) ∧
    (∀ (b : BBox) (p : LatLon), p.lat = b.bottom → b.contains_point p = false) ∧
    (∀ (b : BBox) (p : LatLon), p.lon = b.right → b.contains_point p = false) := by
  have main : ∀ (b : BBox) (p : LatLon), b.contains_point p = true ↔
      (p.lat ≤ b.top ∧ p.lat > b.bottom ∧ p.lon ≥ b.left ∧ p.lon < b.right) := by
    intro b p
    simp [BBox.contains_point, and_assoc]
  refine ⟨main, ?_, ?_, ?_, ?_⟩
  · intro b p h1 h2 h3 h4
    exact (main b p).mpr ⟨le_of_eq h1, h2, h3, h4⟩
  · intro b p h1 h2 h3 h4
    exact (main b p).mpr ⟨h2, h3, le_of_eq h1.symm, by rw [h1]; exact h4⟩
  · intro b p h
    have hb : ¬ (p.lat > b.bottom) := by
      rw [h]
      exact lt_irrefl _
    simp [BBox.contains_point, hb]
  · intro b p h
    have hr : ¬ (p.lon < b.right) := by
      rw [h]
      exact lt_irrefl _
    simp [BBox.contains_point, hr]

/-- Witness for C9: the box `top=10, left=0, bottom=0, right=10`
contains the top-edge point `(10, 5)` and not the bottom-edge point
`(0, 5)`. -/
theorem contains_point_boundary_witness :
    BBox.contains_point ⟨10, 0, 0, 10⟩ ⟨10, 5⟩ = true ∧
    BBox.contains_point ⟨10, 0, 0, 10⟩ ⟨0, 5⟩ = false :=
  ⟨contains_point_boundary.2.1 ⟨10, 0, 0, 10⟩ ⟨10, 5⟩ rfl
      (show (0 : ℚ) < 10 by norm_num) (show (0 : ℚ) ≤ 5 by norm_num)
      (show (5 : ℚ) < 10 by norm_num),
    contains_point_boundary.2.2.2.1 ⟨10, 0, 0, 10⟩ ⟨0, 5⟩ rfl⟩
